import Mathlib

/-!
Shallow embedding of the crawl orchestration engine of the AI SEO Web Crawler
(`src/App.tsx`, `handleCrawlStart`) and of the page-analysis service wrapper
(`analyzePages` in the Gemini service module).

External collaborators (the generative-AI page analyzer, the link extractor,
and the JavaScript `URL` parser) are modelled as an `Env` of oracles: the
engine's behaviour is a function of the oracles' answers.  Stateful JavaScript
(the `queue` array, the `seenUrls` set, the `allInlinks` map, the `results`
React state) is modelled by explicit state passing over `CrawlState`.

`CrawlState` additionally carries ghost observation fields (`enqueuedTrace`,
`dequeuedTrace`, `extractLog`) that record the history of enqueue events,
dequeued batches (exactly those submitted to the analyzer) and extractor
invocations.  They are written exactly where the corresponding effect happens
in the source and are never read by the engine, so they do not alter control
flow; they only make trace properties statable.
-/

namespace AiSeoCrawler

/-- One observed incoming edge, `{sourceUrl, anchorText}` from `types.ts`. -/
structure Inlink where
  sourceUrl : String
  anchorText : String
deriving DecidableEq

/-- A discovered link as returned by the Link Extractor
(`{url, anchorText}` in `geminiService.ts`). -/
structure Link where
  url : String
  anchorText : String
deriving DecidableEq

/-- The `CrawledPage` record of `types.ts`.  Only `url`, `status` and
`inlinks` are read by the orchestration engine; the remaining fields are
inert analyzer payload carried along faithfully. -/
structure Page where
  url : String
  status : Int
  crawlDepth : Int
  redirectUrl : Option String
  canonicalUrl : Option String
  isNoIndex : Bool
  isNoFollow : Bool
  isBlockedByRobotsTxt : Bool
  inlinks : List Inlink
  title : String
  titleLength : Int
  metaDescription : String
  metaDescriptionLength : Int
  h1s : List String
  h2s : List String
  wordCount : Int
  duplicateContentScore : Float
  missingAltTextImages : Int
  schemaTypes : List String
  urlParameters : List String
  responseTimeMs : Int

/-- Oracles for the external collaborators.

`analyze i urls` models the `analyzePages` call for the `i`-th batch of the
crawl (the index makes the oracle free to answer differently on every call);
`extract i url domain` models the `i`-th `extractLinksFromPage` call;
`parseHost u` models `new URL(u).hostname` — `none` when the constructor
would throw. -/
structure Env where
  analyze : Nat → List String → Except String (List Page)
  extract : Nat → String → String → Except String (List Link)
  parseHost : String → Option String

/-- The mutable crawl session state of `handleCrawlStart`, plus ghost trace
fields (see module docstring). -/
structure CrawlState where
  queue : List String
  seen : Finset String
  allInlinks : String → List Inlink
  analyzedCount : Nat
  results : List Page
  nextBatchIdx : Nat
  nextExtractIdx : Nat
  enqueuedTrace : List String
  dequeuedTrace : List (List String)
  extractLog : List String

/-- The fixed batch bound (`const BATCH_SIZE = 5` in `App.tsx`). -/
def BATCH_SIZE : Nat := 5

/-- One discovered link processed, from the inner `for (const link of
newLinks)` loop of `App.tsx`: parse the URL (silently skipping parse
failures), record the inlink edge unconditionally, then enqueue only
same-domain URLs not yet in `seenUrls`. -/
def processLink (siteDomain pageUrl : String) (parseHost : String → Option String)
    (st : CrawlState) (link : Link) : CrawlState :=
  match parseHost link.url with
  | none => st
  | some host =>
    let st1 : CrawlState :=
      { st with allInlinks := fun t =>
          if t = link.url then st.allInlinks link.url ++ [⟨pageUrl, link.anchorText⟩]
          else st.allInlinks t }
    if host = siteDomain ∧ link.url ∉ st.seen then
      { st1 with queue := st1.queue ++ [link.url],
                 seen := insert link.url st1.seen,
                 enqueuedTrace := st1.enqueuedTrace ++ [link.url] }
    else st1

/-- All links of one extractor answer, in order. -/
def processLinks (siteDomain pageUrl : String) (parseHost : String → Option String)
    (st : CrawlState) (links : List Link) : CrawlState :=
  links.foldl (processLink siteDomain pageUrl parseHost) st

/-- One emitted page considered for link discovery, from the `for (const page
of batchResults)` loop of `App.tsx`: skip broken pages (`status >= 400`), skip
when the queue is oversupplied (`queue.length > (target - analyzed) * 1.5`,
written with exact integer arithmetic as `2*len > 3*(target-analyzed)`),
otherwise invoke the Link Extractor and process its links.  An extractor
failure propagates (aborting the crawl) together with the state at the
failure. -/
def processPage (env : Env) (siteDomain : String) (target : Nat)
    (st : CrawlState) (page : Page) : Except (String × CrawlState) CrawlState :=
  if 400 ≤ page.status then .ok st
  else if 3 * ((target : Int) - (st.analyzedCount : Int)) < 2 * (st.queue.length : Int) then
    .ok st
  else
    let stc : CrawlState :=
      { st with nextExtractIdx := st.nextExtractIdx + 1,
                extractLog := st.extractLog ++ [page.url] }
    match env.extract st.nextExtractIdx page.url siteDomain with
    | .error e => .error (e, stc)
    | .ok newLinks => .ok (processLinks siteDomain page.url env.parseHost stc newLinks)

/-- Link discovery for a whole batch of emitted pages, in emission order. -/
def processPages (env : Env) (siteDomain : String) (target : Nat) :
    CrawlState → List Page → Except (String × CrawlState) CrawlState
  | st, [] => .ok st
  | st, page :: rest =>
    match processPage env siteDomain target st page with
    | .error es => .error es
    | .ok st' => processPages env siteDomain target st' rest

/-- Result of one iteration of the `while` loop body. -/
inductive StepResult where
  | brk : CrawlState → StepResult
  | fail : String → CrawlState → StepResult
  | next : CrawlState → StepResult

/-- State carried by a step result. -/
def StepResult.state : StepResult → CrawlState
  | .brk st => st
  | .fail _ st => st
  | .next st => st

/-- The tail of one loop iteration after a successful `analyzePages` answer
`raw`: merge the inlink-graph snapshot taken at this moment
(`allInlinks.get(page.url) || []`) into the returned records, append them to
the results and bump `analyzedCount`, break when the budget is reached,
otherwise run link discovery over the emitted pages.  `st0` is the state
right after the batch was spliced off the queue (its inlink graph is
unchanged by the splice). -/
def afterAnalyze (env : Env) (siteDomain : String) (target : Nat)
    (st0 : CrawlState) (raw : List Page) : StepResult :=
  let merged := raw.map fun p => { p with inlinks := st0.allInlinks p.url }
  let st1 : CrawlState :=
    { st0 with analyzedCount := st0.analyzedCount + merged.length,
               results := st0.results ++ merged }
  if target ≤ st1.analyzedCount then .brk st1
  else
    match processPages env siteDomain target st1 merged with
    | .error (e, st2) => .fail e st2
    | .ok st2 => .next st2

/-- One iteration of the `while` loop body of `handleCrawlStart`: splice off
up to `min(BATCH_SIZE, target - analyzedCount)` URLs, break on an empty
batch, submit the batch to the Page Analyzer (an analyzer failure aborts),
then continue with `afterAnalyze`. -/
def crawlStep (env : Env) (siteDomain : String) (target : Nat)
    (st : CrawlState) : StepResult :=
  let batchUrls := st.queue.take (min BATCH_SIZE (target - st.analyzedCount))
  if batchUrls.length = 0 then .brk st
  else
    let st0 : CrawlState :=
      { st with queue := st.queue.drop (min BATCH_SIZE (target - st.analyzedCount)),
                dequeuedTrace := st.dequeuedTrace ++ [batchUrls],
                nextBatchIdx := st.nextBatchIdx + 1 }
    match env.analyze st.nextBatchIdx batchUrls with
    | .error e => .fail e st0
    | .ok raw => afterAnalyze env siteDomain target st0 raw

/-- Terminal observation of a crawl: `done` for normal loop exit, `failed`
for an aborting collaborator error (carrying the state — in particular the
results — at the failure), `fuelOut` when the supplied fuel ran out with the
loop condition still true (used to observe intermediate states). -/
inductive CrawlOutcome where
  | done : CrawlState → CrawlOutcome
  | failed : String → CrawlState → CrawlOutcome
  | fuelOut : CrawlState → CrawlOutcome

/-- State carried by a crawl outcome. -/
def CrawlOutcome.state : CrawlOutcome → CrawlState
  | .done st => st
  | .failed _ st => st
  | .fuelOut st => st

/-- The `while (queue.length > 0 && analyzedCount < targetPageCount)` loop of
`handleCrawlStart`, indexed by fuel.  The source loop is unbounded; every
finite prefix of its execution is `crawlLoop` at some fuel. -/
def crawlLoop (env : Env) (siteDomain : String) (target : Nat) :
    Nat → CrawlState → CrawlOutcome
  | 0, st =>
    if 0 < st.queue.length ∧ st.analyzedCount < target then .fuelOut st else .done st
  | fuel + 1, st =>
    if 0 < st.queue.length ∧ st.analyzedCount < target then
      match crawlStep env siteDomain target st with
      | .brk st' => .done st'
      | .fail e st' => .failed e st'
      | .next st' => crawlLoop env siteDomain target fuel st'
    else .done st

/-- The initial session state of `handleCrawlStart`: `seenUrls` is pre-seeded
with the exclusion set, and the seed URL is enqueued (and added to
`seenUrls`) only if it is not excluded. -/
def initState (startUrl : String) (excludedUrls : Finset String) : CrawlState :=
  let base : CrawlState :=
    { queue := [], seen := excludedUrls, allInlinks := fun _ => [],
      analyzedCount := 0, results := [], nextBatchIdx := 0, nextExtractIdx := 0,
      enqueuedTrace := [], dequeuedTrace := [], extractLog := [] }
  if startUrl ∈ excludedUrls then base
  else { base with queue := [startUrl], seen := insert startUrl excludedUrls,
                   enqueuedTrace := [startUrl] }

/-- The whole crawl of `handleCrawlStart`: initialize the frontier and the
visited registry, resolve `siteDomain = new URL(startUrl).hostname` (an
unparseable seed throws, caught by the outer handler as a failed crawl), then
run the batch loop. -/
def handleCrawlStart (env : Env) (fuel : Nat) (startUrl : String)
    (targetPageCount : Nat) (excludedUrls : Finset String) : CrawlOutcome :=
  match env.parseHost startUrl with
  | none => .failed "invalid seed URL" (initState startUrl excludedUrls)
  | some siteDomain =>
    crawlLoop env siteDomain targetPageCount fuel (initState startUrl excludedUrls)

/-- The `analyzePages` wrapper of the Gemini service module: short-circuit on
an empty URL list (no API call is made), otherwise delegate to the API
(modelled as the `api` oracle) and attach an empty `inlinks` list to every
returned record. -/
def analyzePagesService (api : List String → String → Except String (List Page))
    (urls : List String) (siteContextUrl : String) : Except String (List Page) :=
  if urls.length = 0 then .ok []
  else
    match api urls siteContextUrl with
    | .error e => .error e
    | .ok data => .ok (data.map fun p => { p with inlinks := [] })

/-- Batch number of the `k`-th dequeued URL (positions counted across the
flattened batch sequence). -/
def batchIdxOf : List (List String) → Nat → Nat
  | [], _ => 0
  | b :: bs, k => if k < b.length then 0 else batchIdxOf bs (k - b.length) + 1

/-- State carried by the result of a link-discovery phase. -/
def excState : Except (String × CrawlState) CrawlState → CrawlState
  | .ok st => st
  | .error (_, st) => st

/-- The §6 Page Analyzer contract: every successful answer has one record per
input URL, in order, each record carrying its input URL. -/
def AnalyzerContract (env : Env) : Prop :=
  ∀ i urls out, env.analyze i urls = .ok out → out.map (·.url) = urls

/-- The collaborator-totality hypothesis of the termination claim: every
analyzer call returns (with one record per input URL) and every extractor
call returns. -/
def TotalEnv (env : Env) : Prop :=
  (∀ i urls, ∃ out, env.analyze i urls = .ok out ∧ out.length = urls.length) ∧
  (∀ i u s, ∃ links, env.extract i u s = .ok links)

/-- The core state invariant of the crawl, independent of any collaborator
contract: the enqueue trace is duplicate-free and splits into the flattened
dequeue trace followed by the current queue (strict FIFO); every enqueued URL
is in the visited registry; the exclusion set is in the registry and disjoint
from the enqueue trace; every enqueued URL parses to the site domain; every
dequeued batch is nonempty of size at most `BATCH_SIZE`; and `analyzedCount`
counts the emitted results. -/
structure InvBase (excl : Finset String) (d : String) (ph : String → Option String)
    (st : CrawlState) : Prop where
  nodup : st.enqueuedTrace.Nodup
  split_eq : st.enqueuedTrace = st.dequeuedTrace.flatten ++ st.queue
  sub_seen : ∀ u ∈ st.enqueuedTrace, u ∈ st.seen
  excl_seen : ∀ u ∈ excl, u ∈ st.seen
  excl_not : ∀ u ∈ excl, u ∉ st.enqueuedTrace
  host : ∀ u ∈ st.enqueuedTrace, ph u = some d
  b_le : ∀ b ∈ st.dequeuedTrace, b.length ≤ BATCH_SIZE
  b_ne : ∀ b ∈ st.dequeuedTrace, b ≠ []
  count_res : st.analyzedCount = st.results.length

/-- The part of the invariant that depends on the Page Analyzer honoring its
contract: the emitted results carry exactly the dequeued URLs in order, the
visited registry is at least as large as results plus queue, and the page
budget is respected. -/
structure CInv (target : Nat) (st : CrawlState) : Prop where
  res_urls : st.results.map (·.url) = st.dequeuedTrace.flatten
  card_ge : st.results.length + st.queue.length ≤ st.seen.card
  a_le : st.analyzedCount ≤ target

/-- Weakening of `CInv` that also holds at failure states (where a batch may
have been dequeued whose records were never emitted): the emitted results
carry a prefix of the dequeued URLs, the total number of dequeued URLs
respects the budget, and the registry/budget bounds still hold. -/
structure CInvW (target : Nat) (st : CrawlState) : Prop where
  res_pre : st.results.map (·.url) <+: st.dequeuedTrace.flatten
  flat_le : st.dequeuedTrace.flatten.length ≤ target
  card_ge : st.results.length + st.queue.length ≤ st.seen.card
  a_le : st.analyzedCount ≤ target

/-- A concrete analyzer record for a URL, used to instantiate theorems on
concrete crawls. -/
def mkPage (u : String) : Page :=
  { url := u, status := 200, crawlDepth := 0, redirectUrl := none, canonicalUrl := none,
    isNoIndex := false, isNoFollow := false, isBlockedByRobotsTxt := false, inlinks := [],
    title := "t", titleLength := 1, metaDescription := "m", metaDescriptionLength := 1,
    h1s := [], h2s := [], wordCount := 10, duplicateContentScore := 0.0,
    missingAltTextImages := 0, schemaTypes := [], urlParameters := [], responseTimeMs := 5 }

/-- A concrete exclusion set. -/
def wExcl : Finset String := {"x"}

/-- A concrete well-behaved collaborator environment: the analyzer answers
one record per input URL; the extractor finds on the seed page a duplicated
internal link and an unparseable link; every URL except "bad" parses with
hostname "d". -/
def wEnv : Env :=
  { analyze := fun _ urls => .ok (urls.map mkPage),
    extract := fun _ u _ =>
      .ok (if u = "s" then [⟨"a", "go"⟩, ⟨"a", "go"⟩, ⟨"bad", "b"⟩] else []),
    parseHost := fun u => if u = "bad" then none else some "d" }

/-- A concrete environment whose analyzer and extractor always fail. -/
def wEnvFail : Env :=
  { analyze := fun _ _ => .error "E",
    extract := fun _ _ _ => .error "E",
    parseHost := fun _ => some "d" }

/-- A concrete page-analysis API oracle that reports if it is ever called. -/
def wApi : List String → String → Except String (List Page) :=
  fun _ _ => .error "called"

/-- A concrete crawl state whose inlink graph already holds an edge
`("s", "go")` for target "a", to exhibit duplicate-edge appending. -/
def wStDup : CrawlState :=
  { initState "s" wExcl with
    allInlinks := fun t => if t = "a" then [⟨"s", "go"⟩] else [] }

theorem processLink_frame (d pu : String) (ph : String → Option String)
    (st : CrawlState) (link : Link) :
    (processLink d pu ph st link).results = st.results ∧
    (processLink d pu ph st link).analyzedCount = st.analyzedCount ∧
    (processLink d pu ph st link).dequeuedTrace = st.dequeuedTrace ∧
    (processLink d pu ph st link).nextBatchIdx = st.nextBatchIdx := by
  cases h : ph link.url <;> simp [processLink, h]
  split <;> simp

theorem processLink_graph (d pu : String) (ph : String → Option String)
    (st : CrawlState) (link : Link) (u : String) :
    st.allInlinks u <+: (processLink d pu ph st link).allInlinks u := by
  cases h : ph link.url with
  | none => simp [processLink, h]
  | some host =>
    simp only [processLink, h]
    split <;> simp only [] <;>
      · by_cases hu : u = link.url
        · subst hu; simp [List.prefix_append]
        · simp [hu]

theorem processLinks_frame (d pu : String) (ph : String → Option String)
    (st : CrawlState) (links : List Link) :
    (processLinks d pu ph st links).results = st.results ∧
    (processLinks d pu ph st links).analyzedCount = st.analyzedCount ∧
    (processLinks d pu ph st links).dequeuedTrace = st.dequeuedTrace ∧
    (processLinks d pu ph st links).nextBatchIdx = st.nextBatchIdx := by
  induction links generalizing st with
  | nil => simp [processLinks]
  | cons l ls ih =>
    have h1 := processLink_frame d pu ph st l
    have h2 := ih (processLink d pu ph st l)
    simp only [processLinks, List.foldl_cons] at h2 ⊢
    exact ⟨h2.1.trans h1.1, (h2.2.1).trans h1.2.1, (h2.2.2.1).trans h1.2.2.1,
      (h2.2.2.2).trans h1.2.2.2⟩

theorem processLinks_graph (d pu : String) (ph : String → Option String)
    (st : CrawlState) (links : List Link) (u : String) :
    st.allInlinks u <+: (processLinks d pu ph st links).allInlinks u := by
  induction links generalizing st with
  | nil => simp [processLinks]
  | cons l ls ih =>
    have h1 := processLink_graph d pu ph st l u
    have h2 := ih (processLink d pu ph st l)
    simp only [processLinks, List.foldl_cons] at h2 ⊢
    exact h1.trans h2

theorem processPage_frame (env : Env) (d : String) (target : Nat)
    (st : CrawlState) (page : Page) :
    (excState (processPage env d target st page)).results = st.results ∧
    (excState (processPage env d target st page)).analyzedCount = st.analyzedCount ∧
    (excState (processPage env d target st page)).dequeuedTrace = st.dequeuedTrace ∧
    (excState (processPage env d target st page)).nextBatchIdx = st.nextBatchIdx := by
  simp only [processPage]
  split
  · simp [excState]
  · split
    · simp [excState]
    · cases h : env.extract st.nextExtractIdx page.url d with
      | error e => simp [excState, h]
      | ok links =>
        simp only [h, excState]
        exact processLinks_frame d page.url env.parseHost _ links

theorem processPage_graph (env : Env) (d : String) (target : Nat)
    (st : CrawlState) (page : Page) (u : String) :
    st.allInlinks u <+: (excState (processPage env d target st page)).allInlinks u := by
  simp only [processPage]
  split
  · simp [excState]
  · split
    · simp [excState]
    · cases h : env.extract st.nextExtractIdx page.url d with
      | error e => simp [excState, h]
      | ok links =>
        simp only [h, excState]
        exact processLinks_graph d page.url env.parseHost
          { st with nextExtractIdx := st.nextExtractIdx + 1,
                    extractLog := st.extractLog ++ [page.url] } links u

theorem processPages_frame (env : Env) (d : String) (target : Nat)
    (pages : List Page) (st : CrawlState) :
    (excState (processPages env d target st pages)).results = st.results ∧
    (excState (processPages env d target st pages)).analyzedCount = st.analyzedCount ∧
    (excState (processPages env d target st pages)).dequeuedTrace = st.dequeuedTrace ∧
    (excState (processPages env d target st pages)).nextBatchIdx = st.nextBatchIdx := by
  induction pages generalizing st with
  | nil => simp [processPages, excState]
  | cons p ps ih =>
    simp only [processPages]
    cases h : processPage env d target st p with
    | error es =>
      have := processPage_frame env d target st p
      simp only [h, excState] at this ⊢
      obtain ⟨e, s⟩ := es
      exact this
    | ok st' =>
      have h1 := processPage_frame env d target st p
      simp only [h, excState] at h1
      have h2 := ih st'
      exact ⟨h2.1.trans h1.1, h2.2.1.trans h1.2.1, h2.2.2.1.trans h1.2.2.1,
        h2.2.2.2.trans h1.2.2.2⟩

theorem processPages_graph (env : Env) (d : String) (target : Nat)
    (pages : List Page) (st : CrawlState) (u : String) :
    st.allInlinks u <+: (excState (processPages env d target st pages)).allInlinks u := by
  induction pages generalizing st with
  | nil => simp [processPages, excState]
  | cons p ps ih =>
    simp only [processPages]
    cases h : processPage env d target st p with
    | error es =>
      have := processPage_graph env d target st p u
      simp only [h, excState] at this ⊢
      obtain ⟨e, s⟩ := es
      exact this
    | ok st' =>
      have h1 := processPage_graph env d target st p u
      simp only [h, excState] at h1
      exact h1.trans (ih st')

theorem processPages_frame_error {env : Env} {d : String} {target : Nat}
    {pages : List Page} {st : CrawlState} {e : String} {s : CrawlState}
    (h : processPages env d target st pages = .error (e, s)) :
    s.results = st.results ∧ s.analyzedCount = st.analyzedCount ∧
    s.dequeuedTrace = st.dequeuedTrace ∧ s.nextBatchIdx = st.nextBatchIdx := by
  have hf := processPages_frame env d target pages st
  rw [h] at hf
  simpa [excState] using hf

theorem processPages_frame_ok {env : Env} {d : String} {target : Nat}
    {pages : List Page} {st : CrawlState} {s : CrawlState}
    (h : processPages env d target st pages = .ok s) :
    s.results = st.results ∧ s.analyzedCount = st.analyzedCount ∧
    s.dequeuedTrace = st.dequeuedTrace ∧ s.nextBatchIdx = st.nextBatchIdx := by
  have hf := processPages_frame env d target pages st
  rw [h] at hf
  simpa [excState] using hf

theorem processPages_graph_error {env : Env} {d : String} {target : Nat}
    {pages : List Page} {st : CrawlState} {e : String} {s : CrawlState}
    (h : processPages env d target st pages = .error (e, s)) (u : String) :
    st.allInlinks u <+: s.allInlinks u := by
  have hf := processPages_graph env d target pages st u
  rw [h] at hf
  simpa [excState] using hf

theorem processPages_graph_ok {env : Env} {d : String} {target : Nat}
    {pages : List Page} {st : CrawlState} {s : CrawlState}
    (h : processPages env d target st pages = .ok s) (u : String) :
    st.allInlinks u <+: s.allInlinks u := by
  have hf := processPages_graph env d target pages st u
  rw [h] at hf
  simpa [excState] using hf

theorem afterAnalyze_results (env : Env) (d : String) (target : Nat)
    (st0 : CrawlState) (raw : List Page) :
    ((afterAnalyze env d target st0 raw).state).results
      = st0.results ++ raw.map (fun p => { p with inlinks := st0.allInlinks p.url }) := by
  simp only [afterAnalyze]
  split
  · rfl
  · split
    · next e st2 heq => simpa using (processPages_frame_error heq).1
    · next st2 heq => simpa using (processPages_frame_ok heq).1

theorem afterAnalyze_count (env : Env) (d : String) (target : Nat)
    (st0 : CrawlState) (raw : List Page) :
    ((afterAnalyze env d target st0 raw).state).analyzedCount
      = st0.analyzedCount + raw.length := by
  simp only [afterAnalyze]
  split
  · simp [StepResult.state]
  · split
    · next e st2 heq => simpa using (processPages_frame_error heq).2.1
    · next st2 heq => simpa using (processPages_frame_ok heq).2.1

theorem afterAnalyze_graph (env : Env) (d : String) (target : Nat)
    (st0 : CrawlState) (raw : List Page) (u : String) :
    st0.allInlinks u <+: ((afterAnalyze env d target st0 raw).state).allInlinks u := by
  simp only [afterAnalyze]
  split
  · simp [StepResult.state]
  · split
    · next e st2 heq => simpa using processPages_graph_error heq u
    · next st2 heq => simpa using processPages_graph_ok heq u

theorem crawlStep_snapshot (env : Env) (d : String) (target : Nat)
    (st : CrawlState) (raw : List Page)
    (hne : st.queue.take (min BATCH_SIZE (target - st.analyzedCount)) ≠ [])
    (hok : env.analyze st.nextBatchIdx
      (st.queue.take (min BATCH_SIZE (target - st.analyzedCount))) = .ok raw) :
    ((crawlStep env d target st).state).results
      = st.results ++ raw.map (fun p => { p with inlinks := st.allInlinks p.url }) := by
  simp only [crawlStep]
  split
  · next hzero => exact absurd (List.length_eq_zero.mp hzero) hne
  · rw [hok]
    simpa using afterAnalyze_results env d target _ raw

theorem crawlStep_results_mono (env : Env) (d : String) (target : Nat)
    (st : CrawlState) :
    st.results <+: ((crawlStep env d target st).state).results := by
  simp only [crawlStep]
  split
  · simp [StepResult.state]
  · split
    · simp [StepResult.state]
    · next raw heq =>
      rw [afterAnalyze_results]
      exact List.prefix_append _ _

theorem crawlStep_graph_mono (env : Env) (d : String) (target : Nat)
    (st : CrawlState) (u : String) :
    st.allInlinks u <+: ((crawlStep env d target st).state).allInlinks u := by
  simp only [crawlStep]
  split
  · simp [StepResult.state]
  · split
    · simp [StepResult.state]
    · next raw heq =>
      simpa using afterAnalyze_graph env d target
        { st with queue := st.queue.drop (min BATCH_SIZE (target - st.analyzedCount)),
                  dequeuedTrace := st.dequeuedTrace
                    ++ [st.queue.take (min BATCH_SIZE (target - st.analyzedCount))],
                  nextBatchIdx := st.nextBatchIdx + 1 } raw u

theorem crawlLoop_results_mono (env : Env) (d : String) (target : Nat)
    (fuel : Nat) (st : CrawlState) :
    st.results <+: ((crawlLoop env d target fuel st).state).results := by
  induction fuel generalizing st with
  | zero =>
    simp only [crawlLoop]
    split <;> simp [CrawlOutcome.state]
  | succ fuel ih =>
    simp only [crawlLoop]
    split
    · have hstep := crawlStep_results_mono env d target st
      cases h : crawlStep env d target st with
      | brk st' => rw [h] at hstep; simpa [CrawlOutcome.state] using hstep
      | fail e st' => rw [h] at hstep; simpa [CrawlOutcome.state] using hstep
      | next st' =>
        rw [h] at hstep
        simp only [StepResult.state] at hstep
        exact hstep.trans (ih st')
    · simp [CrawlOutcome.state]

theorem processLink_invBase {excl : Finset String} {d : String}
    {ph : String → Option String} (pu : String) {st : CrawlState} (link : Link)
    (hI : InvBase excl d ph st) : InvBase excl d ph (processLink d pu ph st link) := by
  cases h : ph link.url with
  | none => simpa [processLink, h] using hI
  | some host' =>
    simp only [processLink, h]
    split
    · next hcond =>
      obtain ⟨hhost, hseen⟩ := hcond
      have hx : link.url ∉ st.enqueuedTrace := fun hmem => hseen (hI.sub_seen _ hmem)
      refine ⟨?_, ?_, ?_, ?_, ?_, ?_, ?_, ?_, ?_⟩
      · simp only []
        rw [List.nodup_append]
        exact ⟨hI.nodup, List.nodup_singleton _, by
          intro a ha hb
          simp only [List.mem_singleton] at hb
          exact hx (hb ▸ ha)⟩
      · simp only [hI.split_eq, List.append_assoc]
      · intro u hu
        rcases List.mem_append.mp hu with h1 | h1
        · exact Finset.mem_insert_of_mem (hI.sub_seen u h1)
        · simp only [List.mem_singleton] at h1
          exact h1 ▸ Finset.mem_insert_self _ _
      · intro u hu
        exact Finset.mem_insert_of_mem (hI.excl_seen u hu)
      · intro u hu hmem
        rcases List.mem_append.mp hmem with h1 | h1
        · exact hI.excl_not u hu h1
        · simp only [List.mem_singleton] at h1
          exact hseen (h1 ▸ hI.excl_seen u hu)
      · intro u hu
        rcases List.mem_append.mp hu with h1 | h1
        · exact hI.host u h1
        · simp only [List.mem_singleton] at h1
          rw [h1, h, hhost]
      · exact hI.b_le
      · exact hI.b_ne
      · exact hI.count_res
    · exact ⟨hI.nodup, hI.split_eq, hI.sub_seen, hI.excl_seen, hI.excl_not,
        hI.host, hI.b_le, hI.b_ne, hI.count_res⟩

theorem processLink_cinv {target : Nat} {d : String} {ph : String → Option String}
    (pu : String) {st : CrawlState} (link : Link)
    (hJ : CInv target st) : CInv target (processLink d pu ph st link) := by
  cases h : ph link.url with
  | none => simpa [processLink, h] using hJ
  | some host' =>
    simp only [processLink, h]
    split
    · next hcond =>
      refine ⟨hJ.res_urls, ?_, hJ.a_le⟩
      simp only [List.length_append, List.length_singleton]
      rw [Finset.card_insert_of_not_mem hcond.2]
      have := hJ.card_ge
      omega
    · exact ⟨hJ.res_urls, hJ.card_ge, hJ.a_le⟩

theorem processLinks_invBase {excl : Finset String} {d : String}
    {ph : String → Option String} (pu : String) {st : CrawlState} (links : List Link)
    (hI : InvBase excl d ph st) :
    InvBase excl d ph (processLinks d pu ph st links) := by
  induction links generalizing st with
  | nil => simpa [processLinks] using hI
  | cons l ls ih =>
    simp only [processLinks, List.foldl_cons] at ih ⊢
    exact ih (processLink_invBase pu l hI)

theorem processLinks_cinv {target : Nat} {d : String} {ph : String → Option String}
    (pu : String) {st : CrawlState} (links : List Link)
    (hJ : CInv target st) : CInv target (processLinks d pu ph st links) := by
  induction links generalizing st with
  | nil => simpa [processLinks] using hJ
  | cons l ls ih =>
    simp only [processLinks, List.foldl_cons] at ih ⊢
    exact ih (processLink_cinv pu l hJ)

theorem processPage_invBase {excl : Finset String} {d : String} (env : Env)
    (target : Nat) {st : CrawlState} (page : Page)
    (hI : InvBase excl d env.parseHost st) :
    InvBase excl d env.parseHost (excState (processPage env d target st page)) := by
  simp only [processPage]
  split
  · simpa [excState] using hI
  · split
    · simpa [excState] using hI
    · have hIc : InvBase excl d env.parseHost
          { st with nextExtractIdx := st.nextExtractIdx + 1,
                    extractLog := st.extractLog ++ [page.url] } :=
        ⟨hI.nodup, hI.split_eq, hI.sub_seen, hI.excl_seen, hI.excl_not,
          hI.host, hI.b_le, hI.b_ne, hI.count_res⟩
      cases h : env.extract st.nextExtractIdx page.url d with
      | error e => simpa [excState, h] using hIc
      | ok links =>
        simp only [h, excState]
        exact processLinks_invBase page.url links hIc

theorem processPage_cinv (d : String) (env : Env) (target : Nat)
    {st : CrawlState} (page : Page) (hJ : CInv target st) :
    CInv target (excState (processPage env d target st page)) := by
  simp only [processPage]
  split
  · simpa [excState] using hJ
  · split
    · simpa [excState] using hJ
    · have hJc : CInv target
          { st with nextExtractIdx := st.nextExtractIdx + 1,
                    extractLog := st.extractLog ++ [page.url] } :=
        ⟨hJ.res_urls, hJ.card_ge, hJ.a_le⟩
      cases h : env.extract st.nextExtractIdx page.url d with
      | error e => simpa [excState, h] using hJc
      | ok links =>
        simp only [h, excState]
        exact processLinks_cinv page.url links hJc

theorem processPages_invBase {excl : Finset String} {d : String} (env : Env)
    (target : Nat) (pages : List Page) {st : CrawlState}
    (hI : InvBase excl d env.parseHost st) :
    InvBase excl d env.parseHost (excState (processPages env d target st pages)) := by
  induction pages generalizing st with
  | nil => simpa [processPages, excState] using hI
  | cons p ps ih =>
    simp only [processPages]
    cases h : processPage env d target st p with
    | error es =>
      have := processPage_invBase env target p hI
      simp only [h] at this
      obtain ⟨e, s⟩ := es
      simpa [excState] using this
    | ok st' =>
      have h1 := processPage_invBase env target p hI
      simp only [h, excState] at h1
      simpa [excState] using ih h1

theorem processPages_cinv (d : String) (env : Env) (target : Nat)
    (pages : List Page) {st : CrawlState} (hJ : CInv target st) :
    CInv target (excState (processPages env d target st pages)) := by
  induction pages generalizing st with
  | nil => simpa [processPages, excState] using hJ
  | cons p ps ih =>
    simp only [processPages]
    cases h : processPage env d target st p with
    | error es =>
      have := processPage_cinv d env target p hJ
      simp only [h] at this
      obtain ⟨e, s⟩ := es
      simpa [excState] using this
    | ok st' =>
      have h1 := processPage_cinv d env target p hJ
      simp only [h, excState] at h1
      simpa [excState] using ih h1

theorem processPages_invBase_error {excl : Finset String} {d : String} {env : Env}
    {target : Nat} {pages : List Page} {st : CrawlState} {e : String} {s : CrawlState}
    (h : processPages env d target st pages = .error (e, s))
    (hI : InvBase excl d env.parseHost st) : InvBase excl d env.parseHost s := by
  have := processPages_invBase env target pages hI
  rw [h] at this
  simpa [excState] using this

theorem processPages_invBase_ok {excl : Finset String} {d : String} {env : Env}
    {target : Nat} {pages : List Page} {st : CrawlState} {s : CrawlState}
    (h : processPages env d target st pages = .ok s)
    (hI : InvBase excl d env.parseHost st) : InvBase excl d env.parseHost s := by
  have := processPages_invBase env target pages hI
  rw [h] at this
  simpa [excState] using this

theorem processPages_cinv_error (d : String) {env : Env}
    {target : Nat} {pages : List Page} {st : CrawlState} {e : String} {s : CrawlState}
    (h : processPages env d target st pages = .error (e, s))
    (hJ : CInv target st) : CInv target s := by
  have := processPages_cinv d env target pages hJ
  rw [h] at this
  simpa [excState] using this

theorem processPages_cinv_ok (d : String) {env : Env}
    {target : Nat} {pages : List Page} {st : CrawlState} {s : CrawlState}
    (h : processPages env d target st pages = .ok s)
    (hJ : CInv target st) : CInv target s := by
  have := processPages_cinv d env target pages hJ
  rw [h] at this
  simpa [excState] using this

@[simp] theorem url_set_inlinks (p : Page) (l : List Inlink) :
    ({ p with inlinks := l } : Page).url = p.url := rfl

theorem map_url_merge (g : String → List Inlink) (raw : List Page) :
    (raw.map fun p => { p with inlinks := g p.url }).map (·.url) = raw.map (·.url) := by
  induction raw with
  | nil => rfl
  | cons p ps ih => simp [ih]

theorem cinv_to_w {target : Nat} {st : CrawlState}
    (hcr : st.analyzedCount = st.results.length) (hJ : CInv target st) :
    CInvW target st := by
  refine ⟨by rw [hJ.res_urls], ?_, hJ.card_ge, hJ.a_le⟩
  have hlen : st.dequeuedTrace.flatten.length = st.results.length := by
    rw [← hJ.res_urls, List.length_map]
  rw [hlen, ← hcr]
  exact hJ.a_le

theorem afterAnalyze_invBase {excl : Finset String} {d : String} (env : Env)
    (target : Nat) {st0 : CrawlState} (raw : List Page)
    (hI : InvBase excl d env.parseHost st0) :
    InvBase excl d env.parseHost ((afterAnalyze env d target st0 raw).state) := by
  have hI1 : InvBase excl d env.parseHost
      { st0 with
        analyzedCount := st0.analyzedCount
          + (raw.map fun p => { p with inlinks := st0.allInlinks p.url }).length,
        results := st0.results ++ raw.map fun p => { p with inlinks := st0.allInlinks p.url } } :=
    ⟨hI.nodup, hI.split_eq, hI.sub_seen, hI.excl_seen, hI.excl_not, hI.host,
      hI.b_le, hI.b_ne, by simp [hI.count_res]⟩
  simp only [afterAnalyze]
  split
  · exact hI1
  · split
    · next e st2 heq => exact processPages_invBase_error heq hI1
    · next st2 heq => exact processPages_invBase_ok heq hI1

theorem afterAnalyze_inv {d : String} (env : Env) (target : Nat) {st0 : CrawlState}
    (raw : List Page)
    (hru : st0.results.map (·.url) ++ raw.map (·.url) = st0.dequeuedTrace.flatten)
    (hcard : st0.results.length + raw.length + st0.queue.length ≤ st0.seen.card)
    (hale : st0.analyzedCount + raw.length ≤ target)
    (hflat : st0.dequeuedTrace.flatten.length ≤ target) :
    (∀ st', afterAnalyze env d target st0 raw = .brk st' → CInv target st') ∧
    (∀ st', afterAnalyze env d target st0 raw = .next st' → CInv target st') ∧
    (∀ e st', afterAnalyze env d target st0 raw = .fail e st' → CInvW target st') := by
  have hJ1 : CInv target
      { st0 with
        analyzedCount := st0.analyzedCount
          + (raw.map fun p => { p with inlinks := st0.allInlinks p.url }).length,
        results := st0.results ++ raw.map fun p => { p with inlinks := st0.allInlinks p.url } } := by
    refine ⟨?_, ?_, ?_⟩
    · simp only [List.map_append, map_url_merge]
      exact hru
    · simp only [List.length_append, List.length_map]
      exact hcard
    · simp only [List.length_map]
      exact hale
  simp only [afterAnalyze]
  split
  · refine ⟨?_, ?_, ?_⟩
    · intro st' h
      simp only [StepResult.brk.injEq] at h
      exact h ▸ hJ1
    · intro st' h
      simp at h
    · intro e st' h
      simp at h
  · split
    · next e st2 heq =>
      refine ⟨?_, ?_, ?_⟩
      · intro st' h
        simp at h
      · intro st' h
        simp at h
      · intro e' st' h
        simp only [StepResult.fail.injEq] at h
        obtain ⟨he, hst⟩ := h
        subst hst
        have hJ2 := processPages_cinv_error d heq hJ1
        have hfr := processPages_frame_error heq
        refine ⟨by rw [hJ2.res_urls], ?_, hJ2.card_ge, hJ2.a_le⟩
        rw [hfr.2.2.1]
        have hlen : st2.results.map (·.url) = st2.dequeuedTrace.flatten := hJ2.res_urls
        simpa using hflat
    · next st2 heq =>
      refine ⟨?_, ?_, ?_⟩
      · intro st' h
        simp at h
      · intro st' h
        simp only [StepResult.next.injEq] at h
        subst h
        exact processPages_cinv_ok d heq hJ1
      · intro e st' h
        simp at h

theorem crawlStep_invBase {excl : Finset String} {d : String} (env : Env)
    (target : Nat) {st : CrawlState} (hI : InvBase excl d env.parseHost st) :
    InvBase excl d env.parseHost ((crawlStep env d target st).state) := by
  simp only [crawlStep]
  split
  · exact hI
  · next hne =>
    have hne' : st.queue.take (min BATCH_SIZE (target - st.analyzedCount)) ≠ [] := by
      intro hnil
      exact hne (by rw [hnil]; rfl)
    have hI0 : InvBase excl d env.parseHost
        { st with queue := st.queue.drop (min BATCH_SIZE (target - st.analyzedCount)),
                  dequeuedTrace := st.dequeuedTrace
                    ++ [st.queue.take (min BATCH_SIZE (target - st.analyzedCount))],
                  nextBatchIdx := st.nextBatchIdx + 1 } := by
      refine ⟨hI.nodup, ?_, hI.sub_seen, hI.excl_seen, hI.excl_not, hI.host,
        ?_, ?_, hI.count_res⟩
      · simp only [List.flatten_append, List.flatten_cons, List.flatten_nil,
          List.append_nil]
        rw [hI.split_eq, List.append_assoc, List.take_append_drop]
      · intro b hb
        rcases List.mem_append.mp hb with h1 | h1
        · exact hI.b_le b h1
        · simp only [List.mem_singleton] at h1
          subst h1
          rw [List.length_take]
          exact le_trans (min_le_left _ _) (min_le_left _ _)
      · intro b hb
        rcases List.mem_append.mp hb with h1 | h1
        · exact hI.b_ne b h1
        · simp only [List.mem_singleton] at h1
          subst h1
          exact hne'
    cases heq : env.analyze st.nextBatchIdx
        (st.queue.take (min BATCH_SIZE (target - st.analyzedCount))) with
    | error e =>
      simp only [heq]
      exact hI0
    | ok raw =>
      simp only [heq]
      exact afterAnalyze_invBase env target raw hI0

theorem crawlStep_inv {excl : Finset String} {d : String} (env : Env) (target : Nat)
    {st : CrawlState} (Hc : AnalyzerContract env)
    (ha : st.analyzedCount < target)
    (hI : InvBase excl d env.parseHost st) (hJ : CInv target st) :
    (∀ st', crawlStep env d target st = .brk st' → CInv target st') ∧
    (∀ st', crawlStep env d target st = .next st' → CInv target st') ∧
    (∀ e st', crawlStep env d target st = .fail e st' → CInvW target st') := by
  have hflat0 : st.dequeuedTrace.flatten.length = st.results.length := by
    rw [← hJ.res_urls, List.length_map]
  have htk : (st.queue.take (min BATCH_SIZE (target - st.analyzedCount))).length
      = min (min BATCH_SIZE (target - st.analyzedCount)) st.queue.length := by
    rw [List.length_take]
  have hdk : (st.queue.drop (min BATCH_SIZE (target - st.analyzedCount))).length
      = st.queue.length - min BATCH_SIZE (target - st.analyzedCount) := by
    rw [List.length_drop]
  simp only [crawlStep]
  split
  · refine ⟨?_, ?_, ?_⟩
    · intro st' h
      simp only [StepResult.brk.injEq] at h
      exact h ▸ hJ
    · intro st' h
      simp at h
    · intro e st' h
      simp at h
  · cases heq : env.analyze st.nextBatchIdx
        (st.queue.take (min BATCH_SIZE (target - st.analyzedCount))) with
    | error e =>
      simp only [heq]
      refine ⟨?_, ?_, ?_⟩
      · intro st' h
        simp at h
      · intro st' h
        simp at h
      · intro e' st' h
        simp only [StepResult.fail.injEq] at h
        obtain ⟨he, hst⟩ := h
        subst hst
        refine ⟨?_, ?_, ?_, ?_⟩
        · simp only [List.flatten_append, List.flatten_cons, List.flatten_nil,
            List.append_nil]
          rw [hJ.res_urls]
          exact List.prefix_append _ _
        · simp only [List.flatten_append, List.flatten_cons, List.flatten_nil,
            List.append_nil, List.length_append]
          have := hJ.a_le
          have := hI.count_res
          omega
        · simp only []
          have := hJ.card_ge
          omega
        · exact hJ.a_le
    | ok raw =>
      simp only [heq]
      have hurl : raw.map (·.url)
          = st.queue.take (min BATCH_SIZE (target - st.analyzedCount)) :=
        Hc _ _ _ heq
      have hrl : raw.length
          = (st.queue.take (min BATCH_SIZE (target - st.analyzedCount))).length := by
        rw [← hurl, List.length_map]
      exact afterAnalyze_inv env target raw
        (by
          simp only [List.flatten_append, List.flatten_cons, List.flatten_nil,
            List.append_nil]
          rw [hurl, hJ.res_urls])
        (by
          simp only []
          have := hJ.card_ge
          omega)
        (by
          simp only []
          have := hJ.a_le
          omega)
        (by
          simp only [List.flatten_append, List.flatten_cons, List.flatten_nil,
            List.append_nil, List.length_append]
          have := hI.count_res
          omega)

theorem crawlLoop_invBase {excl : Finset String} {d : String} (env : Env)
    (target fuel : Nat) {st : CrawlState} (hI : InvBase excl d env.parseHost st) :
    InvBase excl d env.parseHost ((crawlLoop env d target fuel st).state) := by
  induction fuel generalizing st with
  | zero =>
    simp only [crawlLoop]
    split <;> exact hI
  | succ fuel ih =>
    simp only [crawlLoop]
    split
    · have hstepI := crawlStep_invBase env target hI
      cases h : crawlStep env d target st with
      | brk st' =>
        rw [h] at hstepI
        exact hstepI
      | fail e st' =>
        rw [h] at hstepI
        exact hstepI
      | next st' =>
        rw [h] at hstepI
        exact ih hstepI
    · exact hI

theorem crawlLoop_inv {excl : Finset String} {d : String} (env : Env)
    (target fuel : Nat) {st : CrawlState} (Hc : AnalyzerContract env)
    (hI : InvBase excl d env.parseHost st) (hJ : CInv target st) :
    InvBase excl d env.parseHost ((crawlLoop env d target fuel st).state) ∧
    CInvW target ((crawlLoop env d target fuel st).state) := by
  induction fuel generalizing st with
  | zero =>
    simp only [crawlLoop]
    split <;> exact ⟨hI, cinv_to_w hI.count_res hJ⟩
  | succ fuel ih =>
    simp only [crawlLoop]
    split
    · next hcond =>
      have hstepI := crawlStep_invBase env target hI
      have hstep := crawlStep_inv env target Hc hcond.2 hI hJ
      cases h : crawlStep env d target st with
      | brk st' =>
        rw [h] at hstepI
        exact ⟨hstepI, cinv_to_w hstepI.count_res (hstep.1 st' h)⟩
      | fail e st' =>
        rw [h] at hstepI
        exact ⟨hstepI, hstep.2.2 e st' h⟩
      | next st' =>
        rw [h] at hstepI
        exact ih hstepI (hstep.2.1 st' h)
    · exact ⟨hI, cinv_to_w hI.count_res hJ⟩

theorem initState_invBase (startUrl : String) (excl : Finset String) {d : String}
    {ph : String → Option String} (hd : ph startUrl = some d) :
    InvBase excl d ph (initState startUrl excl) := by
  simp only [initState]
  split
  · exact ⟨by simp, by simp, by simp, fun u hu => hu, by simp, by simp,
      by simp, by simp, rfl⟩
  · next hmem =>
    refine ⟨by simp, by simp, ?_, ?_, ?_, ?_, by simp, by simp, rfl⟩
    · intro u hu
      simp only [List.mem_singleton] at hu
      exact hu ▸ Finset.mem_insert_self _ _
    · intro u hu
      exact Finset.mem_insert_of_mem hu
    · intro u hu hmem2
      simp only [List.mem_singleton] at hmem2
      exact hmem (hmem2 ▸ hu)
    · intro u hu
      simp only [List.mem_singleton] at hu
      exact hu ▸ hd

theorem initState_cinv (startUrl : String) (excl : Finset String) (target : Nat) :
    CInv target (initState startUrl excl) := by
  simp only [initState]
  split
  · exact ⟨rfl, by simp, by simp⟩
  · next hmem =>
    refine ⟨rfl, ?_, by simp⟩
    simp only [List.length_nil, List.length_singleton]
    rw [Finset.card_insert_of_not_mem hmem]
    omega

theorem handleCrawlStart_invBase (env : Env) (fuel : Nat) (startUrl : String)
    (target : Nat) (excl : Finset String) {d : String}
    (hd : env.parseHost startUrl = some d) :
    InvBase excl d env.parseHost
      ((handleCrawlStart env fuel startUrl target excl).state) := by
  simp only [handleCrawlStart, hd]
  exact crawlLoop_invBase env target fuel (initState_invBase startUrl excl hd)

theorem handleCrawlStart_inv (env : Env) (fuel : Nat) (startUrl : String)
    (target : Nat) (excl : Finset String) {d : String}
    (hd : env.parseHost startUrl = some d) (Hc : AnalyzerContract env) :
    InvBase excl d env.parseHost
      ((handleCrawlStart env fuel startUrl target excl).state) ∧
    CInvW target ((handleCrawlStart env fuel startUrl target excl).state) := by
  simp only [handleCrawlStart, hd]
  exact crawlLoop_inv env target fuel Hc (initState_invBase startUrl excl hd)
    (initState_cinv startUrl excl target)

theorem crawlLoop_graph_mono (env : Env) (d : String) (target : Nat)
    (fuel : Nat) (st : CrawlState) (u : String) :
    st.allInlinks u <+: ((crawlLoop env d target fuel st).state).allInlinks u := by
  induction fuel generalizing st with
  | zero =>
    simp only [crawlLoop]
    split <;> simp [CrawlOutcome.state]
  | succ fuel ih =>
    simp only [crawlLoop]
    split
    · have hstep := crawlStep_graph_mono env d target st u
      cases h : crawlStep env d target st with
      | brk st' => rw [h] at hstep; simpa [CrawlOutcome.state] using hstep
      | fail e st' => rw [h] at hstep; simpa [CrawlOutcome.state] using hstep
      | next st' =>
        rw [h] at hstep
        simp only [StepResult.state] at hstep
        exact hstep.trans (ih st')
    · simp [CrawlOutcome.state]

theorem processLink_extractLog (d pu : String) (ph : String → Option String)
    (st : CrawlState) (link : Link) :
    (processLink d pu ph st link).extractLog = st.extractLog := by
  cases h : ph link.url <;> simp [processLink, h]
  split <;> simp

theorem processLinks_extractLog (d pu : String) (ph : String → Option String)
    (st : CrawlState) (links : List Link) :
    (processLinks d pu ph st links).extractLog = st.extractLog := by
  induction links generalizing st with
  | nil => simp [processLinks]
  | cons l ls ih =>
    simp only [processLinks, List.foldl_cons] at ih ⊢
    exact (ih (processLink d pu ph st l)).trans (processLink_extractLog d pu ph st l)

theorem batchIdxOf_mono (tr : List (List String)) :
    ∀ i j, i ≤ j → batchIdxOf tr i ≤ batchIdxOf tr j := by
  induction tr with
  | nil =>
    intro i j _
    simp [batchIdxOf]
  | cons b bs ih =>
    intro i j hij
    by_cases hi : i < b.length
    · simp [batchIdxOf, hi]
    · by_cases hj : j < b.length
      · exact absurd (Nat.lt_of_le_of_lt hij hj) hi
      · simp only [batchIdxOf, if_neg hi, if_neg hj]
        exact Nat.succ_le_succ (ih _ _ (Nat.sub_le_sub_right hij _))

theorem crawlLoop_failed_mono (env : Env) (d : String) (target : Nat)
    (fuel : Nat) :
    ∀ fuel' st e stf, fuel ≤ fuel' →
      crawlLoop env d target fuel st = .failed e stf →
      crawlLoop env d target fuel' st = .failed e stf := by
  induction fuel with
  | zero =>
    intro fuel' st e stf _ h
    simp only [crawlLoop] at h
    split at h <;> simp at h
  | succ fuel ih =>
    intro fuel' st e stf hle h
    simp only [crawlLoop] at h
    split at h
    · next hcond =>
      obtain ⟨fuel'', rfl⟩ : ∃ k, fuel' = k + 1 := ⟨fuel' - 1, by omega⟩
      simp only [crawlLoop]
      rw [if_pos hcond]
      cases hs : crawlStep env d target st with
      | brk st' =>
        rw [hs] at h
        simp at h
      | fail e' st' =>
        rw [hs] at h
        exact h
      | next st' =>
        rw [hs] at h
        exact ih fuel'' st' e stf (by omega) h
    · simp at h

theorem processPages_total (env : Env) (d : String) (target : Nat)
    (hE : ∀ i u s, ∃ links, env.extract i u s = .ok links) :
    ∀ pages st, ∃ st', processPages env d target st pages = .ok st' := by
  intro pages
  induction pages with
  | nil => intro st; exact ⟨st, rfl⟩
  | cons p ps ih =>
    intro st
    have hp : ∃ s, processPage env d target st p = .ok s := by
      simp only [processPage]
      split
      · exact ⟨st, rfl⟩
      · split
        · exact ⟨st, rfl⟩
        · obtain ⟨links, hl⟩ := hE st.nextExtractIdx p.url d
          rw [hl]
          exact ⟨_, rfl⟩
    obtain ⟨s, hs⟩ := hp
    simp only [processPages]
    rw [hs]
    exact ih s

theorem afterAnalyze_total (env : Env) (d : String) (target : Nat)
    (st0 : CrawlState) (raw : List Page)
    (hE : ∀ i u s, ∃ links, env.extract i u s = .ok links) :
    (∃ st1, afterAnalyze env d target st0 raw = .brk st1 ∧
      st1.analyzedCount = st0.analyzedCount + raw.length) ∨
    (∃ st2, afterAnalyze env d target st0 raw = .next st2 ∧
      st2.analyzedCount = st0.analyzedCount + raw.length) := by
  simp only [afterAnalyze]
  split
  · left
    exact ⟨_, rfl, by simp⟩
  · right
    obtain ⟨st2, hps⟩ := processPages_total env d target hE
      (raw.map fun p => { p with inlinks := st0.allInlinks p.url })
      { st0 with
        analyzedCount := st0.analyzedCount
          + (raw.map fun p => { p with inlinks := st0.allInlinks p.url }).length,
        results := st0.results ++ raw.map fun p => { p with inlinks := st0.allInlinks p.url } }
    rw [hps]
    refine ⟨st2, rfl, ?_⟩
    have hc := (processPages_frame_ok hps).2.1
    simp only [List.length_map] at hc ⊢
    omega

theorem crawlLoop_total (env : Env) (d : String) (target : Nat)
    (hT : TotalEnv env) :
    ∀ fuel st, target ≤ st.analyzedCount + fuel →
      ∃ stf, crawlLoop env d target fuel st = .done stf := by
  intro fuel
  induction fuel with
  | zero =>
    intro st hb
    refine ⟨st, ?_⟩
    simp only [crawlLoop]
    rw [if_neg]
    intro hc
    omega
  | succ fuel ih =>
    intro st hb
    by_cases hcond : 0 < st.queue.length ∧ st.analyzedCount < target
    · obtain ⟨hq, ha⟩ := hcond
      obtain ⟨raw, hok, hlen⟩ := hT.1 st.nextBatchIdx
        (st.queue.take (min BATCH_SIZE (target - st.analyzedCount)))
      have hbl : 0 < (st.queue.take (min BATCH_SIZE (target - st.analyzedCount))).length := by
        rw [List.length_take]
        have : 0 < BATCH_SIZE := by norm_num [BATCH_SIZE]
        omega
      have hstep : crawlStep env d target st
          = afterAnalyze env d target
            { st with queue := st.queue.drop (min BATCH_SIZE (target - st.analyzedCount)),
                      dequeuedTrace := st.dequeuedTrace
                        ++ [st.queue.take (min BATCH_SIZE (target - st.analyzedCount))],
                      nextBatchIdx := st.nextBatchIdx + 1 } raw := by
        simp only [crawlStep]
        rw [if_neg (by omega), hok]
      rcases afterAnalyze_total env d target
          { st with queue := st.queue.drop (min BATCH_SIZE (target - st.analyzedCount)),
                    dequeuedTrace := st.dequeuedTrace
                      ++ [st.queue.take (min BATCH_SIZE (target - st.analyzedCount))],
                    nextBatchIdx := st.nextBatchIdx + 1 } raw hT.2 with
        ⟨st1, haa, hc1⟩ | ⟨st2, haa, hc2⟩
      · refine ⟨st1, ?_⟩
        simp only [crawlLoop]
        rw [if_pos ⟨hq, ha⟩, hstep, haa]
      · have hc2' : st2.analyzedCount = st.analyzedCount + raw.length := hc2
        obtain ⟨stf, hf⟩ := ih st2 (by omega)
        refine ⟨stf, ?_⟩
        simp only [crawlLoop]
        rw [if_pos ⟨hq, ha⟩, hstep, haa]
        exact hf
    · refine ⟨st, ?_⟩
      simp only [crawlLoop]
      rw [if_neg hcond]

theorem wEnv_contract : AnalyzerContract wEnv := by
  intro i urls out h
  simp only [wEnv, Except.ok.injEq] at h
  subst h
  rw [List.map_map]
  have : (fun p : Page => p.url) ∘ mkPage = id := by
    funext u
    rfl
  rw [this, List.map_id]

theorem wEnv_total : TotalEnv wEnv :=
  ⟨fun _ urls => ⟨urls.map mkPage, rfl, by rw [List.length_map]⟩,
   fun _ _ _ => ⟨_, rfl⟩⟩

/-- C1: for every crawl (any fuel, i.e. any finite prefix of the loop's
execution), assuming the Page Analyzer honors its one-record-per-input-URL
contract: no URL is ever enqueued twice, no URL is ever dequeued (hence
analyzed) twice, a URL of the exclusion set — pre-seeded into the visited
registry before the seed is enqueued — never appears in the frontier (the
enqueue trace) or in the results, even if it equals the seed, and the visited
set is at least as large as the result sequence. -/
theorem crawl_dedup_exclusion (env : Env) (fuel : Nat) (startUrl : String)
    (target : Nat) (excl : Finset String) (Hc : AnalyzerContract env) :
    ((handleCrawlStart env fuel startUrl target excl).state).enqueuedTrace.Nodup ∧
    (((handleCrawlStart env fuel startUrl target excl).state).dequeuedTrace.flatten).Nodup ∧
    (∀ u ∈ excl,
      u ∉ ((handleCrawlStart env fuel startUrl target excl).state).enqueuedTrace) ∧
    (∀ p ∈ ((handleCrawlStart env fuel startUrl target excl).state).results,
      p.url ∉ excl) ∧
    ((handleCrawlStart env fuel startUrl target excl).state).results.length
      ≤ ((handleCrawlStart env fuel startUrl target excl).state).seen.card := by
  cases hd : env.parseHost startUrl with
  | none =>
    simp only [handleCrawlStart, hd, CrawlOutcome.state, initState]
    split
    · exact ⟨by simp, by simp, by simp, by simp, by simp⟩
    · next hmem =>
      refine ⟨by simp, by simp, ?_, by simp, by simp⟩
      intro u hu
      simp only [List.mem_singleton]
      intro h
      exact hmem (h ▸ hu)
  | some d =>
    obtain ⟨hI, hW⟩ := handleCrawlStart_inv env fuel startUrl target excl hd Hc
    revert hI hW
    generalize (handleCrawlStart env fuel startUrl target excl).state = st
    intro hI hW
    refine ⟨hI.nodup, ?_, hI.excl_not, ?_, ?_⟩
    · exact List.Nodup.sublist
        (List.IsPrefix.sublist ⟨st.queue, hI.split_eq.symm⟩) hI.nodup
    · intro p hp hmem
      have h1 : p.url ∈ st.results.map (·.url) := List.mem_map_of_mem _ hp
      have h2 : p.url ∈ st.dequeuedTrace.flatten := hW.res_pre.sublist.subset h1
      have h3 : p.url ∈ st.enqueuedTrace := by
        rw [hI.split_eq]
        exact List.mem_append_left _ h2
      exact hI.excl_not _ hmem h3
    · have := hW.card_ge
      omega

/-- Witness for C1 on a concrete crawl. -/
theorem crawl_dedup_exclusion_witness :
    ((handleCrawlStart wEnv 4 "s" 3 wExcl).state).enqueuedTrace.Nodup ∧
    (((handleCrawlStart wEnv 4 "s" 3 wExcl).state).dequeuedTrace.flatten).Nodup ∧
    (∀ u ∈ wExcl,
      u ∉ ((handleCrawlStart wEnv 4 "s" 3 wExcl).state).enqueuedTrace) ∧
    (∀ p ∈ ((handleCrawlStart wEnv 4 "s" 3 wExcl).state).results, p.url ∉ wExcl) ∧
    ((handleCrawlStart wEnv 4 "s" 3 wExcl).state).results.length
      ≤ ((handleCrawlStart wEnv 4 "s" 3 wExcl).state).seen.card :=
  crawl_dedup_exclusion wEnv 4 "s" 3 wExcl wEnv_contract

/-- C2: for every crawl, assuming the Page Analyzer honors its contract,
`analyzedCount` never exceeds `targetPageCount` (the statement quantifies
over every fuel, so this covers every point of the crawl), every dequeued
batch has at most `BATCH_SIZE` URLs, and the total number of dequeued URLs
respects the budget (the final batch is truncated via
`min(BATCH_SIZE, target - analyzedCount)`). -/
theorem crawl_budget (env : Env) (fuel : Nat) (startUrl : String) (target : Nat)
    (excl : Finset String) (Hc : AnalyzerContract env) :
    ((handleCrawlStart env fuel startUrl target excl).state).analyzedCount ≤ target ∧
    (∀ b ∈ ((handleCrawlStart env fuel startUrl target excl).state).dequeuedTrace,
      b.length ≤ BATCH_SIZE) ∧
    ((handleCrawlStart env fuel startUrl target excl).state).dequeuedTrace.flatten.length
      ≤ target := by
  cases hd : env.parseHost startUrl with
  | none =>
    simp only [handleCrawlStart, hd, CrawlOutcome.state, initState]
    split <;> exact ⟨Nat.zero_le _, by simp, by simp⟩
  | some d =>
    obtain ⟨hI, hW⟩ := handleCrawlStart_inv env fuel startUrl target excl hd Hc
    exact ⟨hW.a_le, hI.b_le, hW.flat_le⟩

/-- Witness for C2 on a concrete crawl. -/
theorem crawl_budget_witness :
    ((handleCrawlStart wEnv 4 "s" 3 wExcl).state).analyzedCount ≤ 3 ∧
    (∀ b ∈ ((handleCrawlStart wEnv 4 "s" 3 wExcl).state).dequeuedTrace,
      b.length ≤ BATCH_SIZE) ∧
    ((handleCrawlStart wEnv 4 "s" 3 wExcl).state).dequeuedTrace.flatten.length ≤ 3 :=
  crawl_budget wEnv 4 "s" 3 wExcl wEnv_contract

/-- C3: the frontier is strict FIFO, so batches expand in breadth-first
order: the flattened sequence of dequeued batches is a prefix of the enqueue
trace (a URL enqueued at position i is dequeued at flattened position i), and
the batch number of a flattened dequeue position is monotone in the position;
together these give that for URLs A, B at enqueue positions i < j, A is
analyzed in a batch no later than B's. -/
theorem crawl_bfs_fifo (env : Env) (fuel : Nat) (startUrl : String) (target : Nat)
    (excl : Finset String) :
    ((handleCrawlStart env fuel startUrl target excl).state).dequeuedTrace.flatten
      <+: ((handleCrawlStart env fuel startUrl target excl).state).enqueuedTrace ∧
    ∀ i j, i ≤ j →
      batchIdxOf ((handleCrawlStart env fuel startUrl target excl).state).dequeuedTrace i
        ≤ batchIdxOf ((handleCrawlStart env fuel startUrl target excl).state).dequeuedTrace j := by
  refine ⟨?_, fun i j hij => batchIdxOf_mono _ i j hij⟩
  cases hd : env.parseHost startUrl with
  | none =>
    simp only [handleCrawlStart, hd, CrawlOutcome.state, initState]
    split <;> exact List.nil_prefix
  | some d =>
    have hI := handleCrawlStart_invBase env fuel startUrl target excl hd
    exact ⟨_, hI.split_eq.symm⟩

/-- Witness for C3 on a concrete crawl. -/
theorem crawl_bfs_fifo_witness :
    ((handleCrawlStart wEnv 4 "s" 3 wExcl).state).dequeuedTrace.flatten
      <+: ((handleCrawlStart wEnv 4 "s" 3 wExcl).state).enqueuedTrace ∧
    batchIdxOf ((handleCrawlStart wEnv 4 "s" 3 wExcl).state).dequeuedTrace 0
      ≤ batchIdxOf ((handleCrawlStart wEnv 4 "s" 3 wExcl).state).dequeuedTrace 1 :=
  ⟨(crawl_bfs_fifo wEnv 4 "s" 3 wExcl).1,
   (crawl_bfs_fifo wEnv 4 "s" 3 wExcl).2 0 1 (by decide)⟩

/-- C4: every URL ever placed on the frontier (seed included) parses to
exactly the site domain, the hostname of the seed URL; links whose hostname
differs — subdomains included — are never enqueued. -/
theorem crawl_domain_restriction (env : Env) (fuel : Nat) (startUrl : String)
    (target : Nat) (excl : Finset String) (d : String)
    (hd : env.parseHost startUrl = some d) :
    ∀ u ∈ ((handleCrawlStart env fuel startUrl target excl).state).enqueuedTrace,
      env.parseHost u = some d :=
  (handleCrawlStart_invBase env fuel startUrl target excl hd).host

/-- Witness for C4: the discovered link "a" on a concrete crawl parses to the
site domain. -/
theorem crawl_domain_restriction_witness : wEnv.parseHost "a" = some "d" :=
  crawl_domain_restriction wEnv 4 "s" 3 wExcl "d" (by decide) "a" (by decide)

/-- C5: the `inlinks` of the records emitted by a batch are exactly the
inlink-graph entries for their URLs as the graph stood when the batch was
merged — before any link extraction of that batch ran (the graph at merge
time is the pre-step graph); moreover the graph only ever grows by appending
(so edges recorded later, including from sibling pages of the same batch,
never appear in that snapshot), and the result sequence is append-only (a
record once emitted is never modified). -/
theorem crawl_inlink_snapshot (env : Env) (d : String) (target : Nat)
    (st : CrawlState) (raw : List Page) (fuel : Nat) (u : String)
    (hne : st.queue.take (min BATCH_SIZE (target - st.analyzedCount)) ≠ [])
    (hok : env.analyze st.nextBatchIdx
      (st.queue.take (min BATCH_SIZE (target - st.analyzedCount))) = .ok raw) :
    ((crawlStep env d target st).state).results
      = st.results ++ raw.map (fun p => { p with inlinks := st.allInlinks p.url }) ∧
    st.allInlinks u <+: ((crawlLoop env d target fuel st).state).allInlinks u ∧
    st.results <+: ((crawlLoop env d target fuel st).state).results :=
  ⟨crawlStep_snapshot env d target st raw hne hok,
   crawlLoop_graph_mono env d target fuel st u,
   crawlLoop_results_mono env d target fuel st⟩

/-- Witness for C5 on a concrete batch. -/
theorem crawl_inlink_snapshot_witness :
    ((crawlStep wEnv "d" 3 (initState "s" wExcl)).state).results
      = (initState "s" wExcl).results
        ++ [mkPage "s"].map
          (fun p => { p with inlinks := (initState "s" wExcl).allInlinks p.url }) ∧
    (initState "s" wExcl).allInlinks "a"
      <+: ((crawlLoop wEnv "d" 3 4 (initState "s" wExcl)).state).allInlinks "a" ∧
    (initState "s" wExcl).results
      <+: ((crawlLoop wEnv "d" 3 4 (initState "s" wExcl)).state).results :=
  crawl_inlink_snapshot wEnv "d" 3 (initState "s" wExcl) [mkPage "s"] 4 "a"
    (by decide) rfl

/-- C6: within a batch's discovery phase, the Link Extractor is invoked for
an emitted page exactly when the page's status is below 400 and the frontier
is not oversupplied (`queue.length ≤ (target - analyzedCount) * 1.5`, here in
exact integer form); when either condition fails the page is skipped with the
state untouched — no extractor call, no new frontier entries. -/
theorem crawl_extraction_guard (env : Env) (d : String) (target : Nat)
    (st : CrawlState) (page : Page) :
    ((400 ≤ page.status ∨
        3 * ((target : Int) - (st.analyzedCount : Int)) < 2 * (st.queue.length : Int)) →
      processPage env d target st page = .ok st) ∧
    (page.status < 400 →
      2 * (st.queue.length : Int) ≤ 3 * ((target : Int) - (st.analyzedCount : Int)) →
      (excState (processPage env d target st page)).extractLog
        = st.extractLog ++ [page.url]) := by
  constructor
  · intro h
    by_cases hs : 400 ≤ page.status
    · simp [processPage, hs]
    · have hq : 3 * ((target : Int) - (st.analyzedCount : Int))
          < 2 * (st.queue.length : Int) := by
        rcases h with h | h
        · exact absurd h hs
        · exact h
      simp [processPage, hs, hq]
  · intro h1 h2
    have hs : ¬ 400 ≤ page.status := by omega
    have hq : ¬ (3 * ((target : Int) - (st.analyzedCount : Int))
        < 2 * (st.queue.length : Int)) := by omega
    simp only [processPage, if_neg hs, if_neg hq]
    cases hx : env.extract st.nextExtractIdx page.url d with
    | error e => simp [excState]
    | ok links =>
      simp only [excState]
      exact processLinks_extractLog d page.url env.parseHost _ links

/-- Witness for C6 on a concrete page. -/
theorem crawl_extraction_guard_witness :
    ((400 ≤ (mkPage "s").status ∨
        3 * ((3 : Int) - ((initState "s" wExcl).analyzedCount : Int))
          < 2 * ((initState "s" wExcl).queue.length : Int)) →
      processPage wEnv "d" 3 (initState "s" wExcl) (mkPage "s")
        = .ok (initState "s" wExcl)) ∧
    ((mkPage "s").status < 400 →
      2 * ((initState "s" wExcl).queue.length : Int)
        ≤ 3 * ((3 : Int) - ((initState "s" wExcl).analyzedCount : Int)) →
      (excState (processPage wEnv "d" 3 (initState "s" wExcl) (mkPage "s"))).extractLog
        = (initState "s" wExcl).extractLog ++ [(mkPage "s").url]) :=
  crawl_extraction_guard wEnv "d" 3 (initState "s" wExcl) (mkPage "s")

/-- C7: a collaborator failure aborts the crawl immediately: a failed
outcome is stable under any additional fuel (no further batch is ever
attempted), an analyzer failure aborts the step with the result sequence
exactly as before the failing call, and an extractor failure aborts the
page's discovery with the result sequence exactly as before the failing call
(the current batch's records were already appended). -/
theorem crawl_failure_aborts (env : Env) (d : String) (target fuel fuel' : Nat)
    (st : CrawlState) (e : String) (stf : CrawlState) (page : Page)
    (hff : fuel ≤ fuel') :
    (crawlLoop env d target fuel st = .failed e stf →
      crawlLoop env d target fuel' st = .failed e stf) ∧
    (st.queue.take (min BATCH_SIZE (target - st.analyzedCount)) ≠ [] →
      env.analyze st.nextBatchIdx
        (st.queue.take (min BATCH_SIZE (target - st.analyzedCount))) = .error e →
      ∃ s, crawlStep env d target st = .fail e s ∧ s.results = st.results) ∧
    (page.status < 400 →
      2 * (st.queue.length : Int) ≤ 3 * ((target : Int) - (st.analyzedCount : Int)) →
      env.extract st.nextExtractIdx page.url d = .error e →
      ∃ s, processPage env d target st page = .error (e, s) ∧ s.results = st.results) := by
  refine ⟨fun h => crawlLoop_failed_mono env d target fuel fuel' st e stf hff h, ?_, ?_⟩
  · intro hne herr
    have hstep : crawlStep env d target st = .fail e
        { st with queue := st.queue.drop (min BATCH_SIZE (target - st.analyzedCount)),
                  dequeuedTrace := st.dequeuedTrace
                    ++ [st.queue.take (min BATCH_SIZE (target - st.analyzedCount))],
                  nextBatchIdx := st.nextBatchIdx + 1 } := by
      simp only [crawlStep]
      rw [if_neg fun hzero => hne (List.length_eq_zero.mp hzero), herr]
    exact ⟨_, hstep, rfl⟩
  · intro h1 h2 hext
    have hs : ¬ 400 ≤ page.status := by omega
    have hq : ¬ (3 * ((target : Int) - (st.analyzedCount : Int))
        < 2 * (st.queue.length : Int)) := by omega
    have hp : processPage env d target st page = .error (e,
        { st with nextExtractIdx := st.nextExtractIdx + 1,
                  extractLog := st.extractLog ++ [page.url] }) := by
      simp only [processPage, if_neg hs, if_neg hq]
      rw [hext]
    exact ⟨_, hp, rfl⟩

/-- Witness for C7 on a concrete always-failing environment. -/
theorem crawl_failure_aborts_witness :
    (crawlLoop wEnvFail "d" 2 1 (initState "s" wExcl)
        = .failed "E" ((crawlLoop wEnvFail "d" 2 1 (initState "s" wExcl)).state) →
      crawlLoop wEnvFail "d" 2 2 (initState "s" wExcl)
        = .failed "E" ((crawlLoop wEnvFail "d" 2 1 (initState "s" wExcl)).state)) ∧
    ((initState "s" wExcl).queue.take
        (min BATCH_SIZE (2 - (initState "s" wExcl).analyzedCount)) ≠ [] →
      wEnvFail.analyze (initState "s" wExcl).nextBatchIdx
        ((initState "s" wExcl).queue.take
          (min BATCH_SIZE (2 - (initState "s" wExcl).analyzedCount))) = .error "E" →
      ∃ s, crawlStep wEnvFail "d" 2 (initState "s" wExcl) = .fail "E" s ∧
        s.results = (initState "s" wExcl).results) ∧
    ((mkPage "s").status < 400 →
      2 * ((initState "s" wExcl).queue.length : Int)
        ≤ 3 * ((2 : Int) - ((initState "s" wExcl).analyzedCount : Int)) →
      wEnvFail.extract (initState "s" wExcl).nextExtractIdx (mkPage "s").url "d"
        = .error "E" →
      ∃ s, processPage wEnvFail "d" 2 (initState "s" wExcl) (mkPage "s")
          = .error ("E", s) ∧
        s.results = (initState "s" wExcl).results) :=
  crawl_failure_aborts wEnvFail "d" 2 1 2 (initState "s" wExcl) "E"
    ((crawlLoop wEnvFail "d" 2 1 (initState "s" wExcl)).state) (mkPage "s")
    (by decide)

/-- C8: for every link returned by the extractor: if its URL fails to parse
the link is silently discarded (the state, hence the graph and the frontier,
is unchanged and the crawl continues); if it parses, an edge (source = the
emitting page, anchor as given) is appended to the graph entry of the link's
URL regardless of its hostname, duplicates included, and no other graph entry
changes. -/
theorem crawl_link_handling (d pu : String) (ph : String → Option String)
    (st : CrawlState) (link : Link) :
    (ph link.url = none → processLink d pu ph st link = st) ∧
    (∀ h, ph link.url = some h →
      (processLink d pu ph st link).allInlinks link.url
        = st.allInlinks link.url ++ [⟨pu, link.anchorText⟩] ∧
      ∀ t, t ≠ link.url → (processLink d pu ph st link).allInlinks t = st.allInlinks t) := by
  constructor
  · intro h
    simp [processLink, h]
  · intro h hsome
    simp only [processLink, hsome]
    constructor
    · split <;> simp
    · intro t ht
      split <;> simp [ht]

/-- Witness for C8: an unparseable link is a no-op, and a parsed duplicate
link appends a second copy of the same edge. -/
theorem crawl_link_handling_witness :
    processLink "d" "s" wEnv.parseHost wStDup ⟨"bad", "b"⟩ = wStDup ∧
    (processLink "d" "s" wEnv.parseHost wStDup ⟨"a", "go"⟩).allInlinks "a"
      = wStDup.allInlinks "a" ++ [⟨"s", "go"⟩] :=
  ⟨(crawl_link_handling "d" "s" wEnv.parseHost wStDup ⟨"bad", "b"⟩).1 (by decide),
   ((crawl_link_handling "d" "s" wEnv.parseHost wStDup ⟨"a", "go"⟩).2 "d" (by decide)).1⟩

/-- C9: for every target and every collaborator behaviour in which each
analyzer call returns one record per input URL and each extractor call
returns, the crawl completes within `targetPageCount` batch iterations
(fuel = target suffices): each iteration analyzes a nonempty batch, so
`analyzedCount` strictly increases towards the budget even when extraction
keeps the frontier nonempty. -/
theorem crawl_terminates (env : Env) (startUrl d : String) (target : Nat)
    (excl : Finset String) (hd : env.parseHost startUrl = some d)
    (hT : TotalEnv env) :
    ∃ stf, handleCrawlStart env target startUrl target excl = .done stf := by
  simp only [handleCrawlStart, hd]
  refine crawlLoop_total env d target hT target (initState startUrl excl) ?_
  have h0 : (initState startUrl excl).analyzedCount = 0 := by
    simp only [initState]
    split <;> rfl
  omega

/-- Witness for C9 on a concrete crawl. -/
theorem crawl_terminates_witness :
    ∃ stf, handleCrawlStart wEnv 3 "s" 3 wExcl = .done stf :=
  crawl_terminates wEnv "s" "d" 3 wExcl (by decide) wEnv_total

/-- C10: `analyzePages` called on an empty URL sequence returns the empty
sequence immediately without consulting the API (the result is `.ok []` for
every API oracle, including one that always fails); and the crawl loop never
submits an empty batch to the analyzer — every dequeued batch on the trace
(exactly the analyzer submissions) is nonempty. -/
theorem crawl_no_empty_batch :
    (∀ api ctx, analyzePagesService api [] ctx = .ok []) ∧
    (∀ env fuel startUrl target excl,
      ∀ b ∈ ((handleCrawlStart env fuel startUrl target excl).state).dequeuedTrace,
        b ≠ []) := by
  refine ⟨fun api ctx => rfl, ?_⟩
  intro env fuel startUrl target excl b hb
  cases hd : env.parseHost startUrl with
  | none =>
    simp only [handleCrawlStart, hd, CrawlOutcome.state, initState] at hb
    split at hb <;> simp at hb
  | some d =>
    exact (handleCrawlStart_invBase env fuel startUrl target excl hd).b_ne b hb

/-- Witness for C10: the service short-circuits even for an always-failing
API, and the concrete crawl's only batch is nonempty. -/
theorem crawl_no_empty_batch_witness :
    analyzePagesService wApi [] "c" = .ok [] ∧ (["s"] : List String) ≠ [] :=
  ⟨crawl_no_empty_batch.1 wApi "c",
   crawl_no_empty_batch.2 wEnv 2 "s" 1 wExcl ["s"] (by decide)⟩

end AiSeoCrawler
